import Mathlib

/-!
Verification of the Otsu adaptive-thresholding core of
`src/notebooks/otsu_water_detection.py`.

The Python file is glue around the Earth Engine (ee) object model.  The
shallow embedding below translates the repository's functions over exact
rational arithmetic (`ℚ`).  Conventions of the host platform that the
translation relies on:

* ee division returns 0 on division by zero (documented platform
  behaviour); `ℚ` division in Lean has the same convention, so `/` is a
  faithful translation of `ee.Number.divide` / array division.
* `array.slice(0, 0, i)` is `List.take i`;
  `array.reduce(sum, [0]).get([0])` is `List.sum`;
  elementwise `multiply` of two equal-length arrays is
  `List.zipWith (fun m c => m * c)`.
* `means.sort(bss)` sorts the `means` array by the `bss` keys; the
  reference behaviour (spec §4.2 item 4) is a stable ascending sort, so
  it is embedded as a stable insertion sort on (key, value) pairs.
  `get([-1])` takes the last element and faults on an empty array, which
  is embedded as `Option` (`getLast?`).
* Failures raised by the host (missing dictionary key / null histogram)
  are embedded as `Option`: `none` is a raised exception.
-/

/-- `wsum means counts` is the count-weighted sum
`Σ mean·count` — the translation of
`means.multiply(counts).reduce(ee.Reducer.sum(), [0]).get([0])`. -/
def wsum (means counts : List ℚ) : ℚ :=
  (List.zipWith (fun m c => m * c) means counts).sum

/-- Translation of the inner `calc_bss(i)` of `calculate_otsu_threshold`
(src/notebooks/otsu_water_detection.py, lines 58-73): the between-class
variance of the split `[0, i) / [i, N)`, written exactly as the source
computes it (class B via subtraction from the global aggregates). -/
def calc_bss (counts means : List ℚ) (i : ℕ) : ℚ :=
  let total := counts.sum
  let sum_val := wsum means counts
  let mean := sum_val / total
  let aCount := (counts.take i).sum
  let aMean := wsum (means.take i) (counts.take i) / aCount
  let bCount := total - aCount
  let bMean := (sum_val - aCount * aMean) / bCount
  aCount * (aMean - mean) ^ 2 + bCount * (bMean - mean) ^ 2

/-- `indices.map(calc_bss)` for `indices = ee.List.sequence(1, size)`:
the BSS value of every split `i = 1 .. N` (N = number of buckets). -/
def bssList (counts means : List ℚ) : List ℚ :=
  (List.range means.length).map (fun j => calc_bss counts means (j + 1))

/-- Stable insertion of a (key, value) pair into a key-sorted list:
the pair goes before the first element whose key is `≥` its own, so an
element inserted from the left of the original list stays left of equal
keys. -/
def insertByKey (p : ℚ × ℚ) : List (ℚ × ℚ) → List (ℚ × ℚ)
  | [] => [p]
  | q :: qs => if p.1 ≤ q.1 then p :: q :: qs else q :: insertByKey p qs

/-- Stable sort of (key, value) pairs by ascending key — the embedding of
`means.sort(bss)` (values `means`, keys `bss`). -/
def sortByKey : List (ℚ × ℚ) → List (ℚ × ℚ)
  | [] => []
  | p :: ps => insertByKey p (sortByKey ps)

/-- Translation of `calculate_otsu_threshold`
(src/notebooks/otsu_water_detection.py, lines 33-79): compute the BSS of
every split `1 .. N`, sort the bucket means by BSS and return the last
one.  `none` models the host fault of `get([-1])` on an empty array. -/
def calculate_otsu_threshold (counts means : List ℚ) : Option ℚ :=
  (sortByKey ((bssList counts means).zip means)).getLast?.map Prod.snd

/-- Spec-side class-A count: `countA(i) = Σ_{[0,i)} count` (spec §4.2). -/
def countA (counts : List ℚ) (i : ℕ) : ℚ := (counts.take i).sum

/-- Spec-side class-B count: `countB(i) = Σ_{[i,N)} count` (spec §4.2). -/
def countB (counts : List ℚ) (i : ℕ) : ℚ := (counts.drop i).sum

/-- Spec-side global count-weighted mean (spec §4.2). -/
def meanGlobal (counts means : List ℚ) : ℚ := wsum means counts / counts.sum

/-- Spec-side class-A count-weighted mean (spec §4.2). -/
def meanA (counts means : List ℚ) (i : ℕ) : ℚ :=
  wsum (means.take i) (counts.take i) / countA counts i

/-- Spec-side class-B count-weighted mean (spec §4.2). -/
def meanB (counts means : List ℚ) (i : ℕ) : ℚ :=
  wsum (means.drop i) (counts.drop i) / countB counts i

/-- The between-class variance exactly as the claims state it:
`BCV(i) = countA(i)·(meanA(i) − meanGlobal)² + countB(i)·(meanB(i) − meanGlobal)²`.
This is written from the spec's words, to be compared with the source's
`calc_bss`. -/
def BCV (counts means : List ℚ) (i : ℕ) : ℚ :=
  countA counts i * (meanA counts means i - meanGlobal counts means) ^ 2 +
    countB counts i * (meanB counts means i - meanGlobal counts means) ^ 2

/-- A ward feature as `calculate_ward_threshold` sees it: its `ward_id`
property and the outcome of the external `reduceRegion` histogram
retrieval — `none` models a raised retrieval failure (missing key / null
histogram for a region with no valid pixels). -/
structure WardFeature where
  ward_id : ℕ
  histogram : Option (List ℚ × List ℚ)

/-- The feature returned by `calculate_ward_threshold`
(src/notebooks/otsu_water_detection.py, lines 161-164): the ward with the
properties `otsu_threshold` and `threshold_calculated` set. -/
structure WardResult where
  ward_id : ℕ
  otsu_threshold : ℚ
  threshold_calculated : Bool

/-- Translation of the inner `calculate_ward_threshold`
(src/notebooks/otsu_water_detection.py, lines 140-164): try to solve the
ward's histogram; on any failure (`except:`) fall back to the fixed
`ee.Number(-15)`; set `otsu_threshold` and `threshold_calculated = True`
on the feature. -/
def calculate_ward_threshold (w : WardFeature) : WardResult :=
  let threshold : ℚ :=
    match w.histogram with
    | none => -15
    | some (counts, means) =>
      match calculate_otsu_threshold counts means with
      | none => -15
      | some t => t
  ⟨w.ward_id, threshold, true⟩

/-- A serialized feature's properties as the dict-building loop of
`calculate_ward_specific_thresholds` reads them (lines 172-176): the
`otsu_threshold` property may be absent (`none`). -/
structure FeatureProps where
  ward_id : ℕ
  otsu_threshold : Option ℚ

/-- Serialization of a `WardResult` into feature properties: every field
set by `calculate_ward_threshold` is present. -/
def wardResultProps (r : WardResult) : FeatureProps :=
  ⟨r.ward_id, some r.otsu_threshold⟩

/-- Translation of the dict comprehension of
`calculate_ward_specific_thresholds` (lines 172-176):
`ward_thresholds[ward_id] = properties.get('otsu_threshold', -15)`.
The result is an association list; with pairwise-distinct `ward_id`s it
is exactly the Python dict (no key is ever overwritten). -/
def extract_ward_thresholds (features : List FeatureProps) : List (ℕ × ℚ) :=
  features.map (fun f => (f.ward_id, f.otsu_threshold.getD (-15)))

/-- Translation of `calculate_ward_specific_thresholds`
(src/notebooks/otsu_water_detection.py, lines 117-186), printing and the
external speckle filtering / compositing elided: map
`calculate_ward_threshold` over the wards, then build the
`ward_id → threshold` mapping from the resulting features. -/
def calculate_ward_specific_thresholds (wards : List WardFeature) : List (ℕ × ℚ) :=
  extract_ward_thresholds ((wards.map calculate_ward_threshold).map wardResultProps)

/-- A ward as the Mask Synthesizer sees it: identifier plus geometry.
Modelled from the spec: a Region geometry is opaque to the core and only
selects pixels, so it is embedded as a pixel-membership predicate. -/
structure Ward (α : Type) where
  ward_id : ℕ
  geom : α → Bool

/-- Modelled from the spec: the external platform's `image.lt(t)` — the
per-pixel binary image `pixel value < t`. -/
def imageLt {α : Type} (img : α → ℚ) (t : ℚ) : α → Bool :=
  fun p => decide (img p < t)

/-- Modelled from the spec: the external platform's `image.clip(geom)` —
restriction of a mask to a geometry; pixels outside the geometry read as
0 (spec §4.4: pixels outside every region are 0). -/
def imageClip {α : Type} (m geom : α → Bool) : α → Bool :=
  fun p => m p && geom p

/-- Modelled from the spec: the external platform's `image.Or` — the
per-pixel logical OR of two masks. -/
def imageOr {α : Type} (m1 m2 : α → Bool) : α → Bool :=
  fun p => m1 p || m2 p

/-- Translation of
`wards_fc.filter(ee.Filter.eq('ward_id', ward_id)).first()`
(src/notebooks/otsu_water_detection.py, line 212): the first ward with
the given identifier; `none` models the host fault on an empty filter
result. -/
def findWard {α : Type} (wards : List (Ward α)) (i : ℕ) : Option (Ward α) :=
  wards.find? (fun w => w.ward_id == i)

/-- The per-region mask of the spec (§4.4): `pixel < threshold[region]`,
restricted to the region's spatial extent. -/
def perRegionMask {α : Type} (img : α → ℚ) (t : ℚ) (w : Ward α) : α → Bool :=
  imageClip (imageLt img t) w.geom

/-- Translation of `detect_water_with_ward_thresholds`
(src/notebooks/otsu_water_detection.py, lines 189-221), speckle filtering
and band selection elided (the spec's core receives the already-filtered
intensity image): start from `ee.Image(0)` and OR in
`filtered_band.lt(threshold).clip(ward_geom)` for every
`(ward_id, threshold)` entry.  `none` models the host fault when a
`ward_id` has no matching ward. -/
def detect_water_with_ward_thresholds {α : Type} (img : α → ℚ)
    (wards : List (Ward α)) (thresholds : List (ℕ × ℚ)) : Option (α → Bool) :=
  thresholds.foldlM
    (fun acc e =>
      (findWard wards e.1).map (fun w => imageOr acc (perRegionMask img e.2 w)))
    (fun _ => false)

/-- Translation of step 3 of `create_permanent_water_with_otsu`
(src/notebooks/otsu_water_detection.py, lines 310-312):
`water_collection.sum().divide(water_count)` with
`water_count = water_collection.size()`.  Mask pixels are 1/0; division
follows the platform's division-by-zero-returns-0 convention (`ℚ`). -/
def water_frequency {α : Type} (masks : List (α → Bool)) : α → ℚ :=
  fun p => (masks.map (fun m => if m p then (1 : ℚ) else 0)).sum / (masks.length : ℚ)

theorem wsum_nil_left (cs : List ℚ) : wsum [] cs = 0 := by
  simp [wsum]

theorem wsum_nil_right (ms : List ℚ) : wsum ms [] = 0 := by
  cases ms <;> simp [wsum]

theorem wsum_cons (m c : ℚ) (ms cs : List ℚ) :
    wsum (m :: ms) (c :: cs) = m * c + wsum ms cs := by
  simp [wsum]

theorem wsum_eq_zero (ms : List ℚ) :
    ∀ cs : List ℚ, (∀ c ∈ cs, c = 0) → wsum ms cs = 0 := by
  induction ms with
  | nil => intro cs _; exact wsum_nil_left cs
  | cons m ms ih =>
    intro cs h
    cases cs with
    | nil => exact wsum_nil_right _
    | cons c cs =>
      rw [wsum_cons, h c (List.mem_cons_self c cs),
        ih cs (fun x hx => h x (List.mem_cons_of_mem c hx))]
      ring

theorem sum_zero_all_zero (cs : List ℚ) (hn : ∀ c ∈ cs, 0 ≤ c) (hs : cs.sum = 0) :
    ∀ c ∈ cs, c = 0 := by
  induction cs with
  | nil => simp
  | cons c cs ih =>
    have h1 : 0 ≤ c := hn c (List.mem_cons_self c cs)
    have h2 : 0 ≤ cs.sum :=
      List.sum_nonneg (fun x hx => hn x (List.mem_cons_of_mem c hx))
    have hsum : c + cs.sum = 0 := by simpa using hs
    intro x hx
    rcases List.mem_cons.mp hx with rfl | hx
    · linarith
    · exact ih (fun y hy => hn y (List.mem_cons_of_mem c hy)) (by linarith) x hx

theorem sum_mul_wsum_div (ms cs : List ℚ) (h : ∀ c ∈ cs, 0 ≤ c) :
    cs.sum * (wsum ms cs / cs.sum) = wsum ms cs := by
  by_cases hz : cs.sum = 0
  · rw [hz, zero_mul, wsum_eq_zero ms cs (sum_zero_all_zero cs h hz)]
  · rw [mul_comm, div_mul_cancel₀ _ hz]

theorem wsum_take_add_wsum_drop (ms cs : List ℚ) (i : ℕ) :
    wsum (ms.take i) (cs.take i) + wsum (ms.drop i) (cs.drop i) = wsum ms cs := by
  unfold wsum
  rw [← List.take_zipWith, ← List.drop_zipWith, List.sum_take_add_sum_drop]

/-- The source's `calc_bss` computes exactly the spec's between-class
variance `BCV`: with non-negative counts, the class-B aggregates obtained
by subtraction from the global aggregates agree with the direct
count-weighted class-B aggregates of the spec. -/
theorem calc_bss_eq_BCV (counts means : List ℚ)
    (hnonneg : ∀ c ∈ counts, 0 ≤ c) (i : ℕ) :
    calc_bss counts means i = BCV counts means i := by
  have hn : ∀ c ∈ counts.take i, 0 ≤ c :=
    fun c hc => hnonneg c (List.take_subset i counts hc)
  have h1 : (counts.take i).sum *
      (wsum (means.take i) (counts.take i) / (counts.take i).sum) =
      wsum (means.take i) (counts.take i) := sum_mul_wsum_div _ _ hn
  have h2 := wsum_take_add_wsum_drop means counts i
  have h3 := List.sum_take_add_sum_drop counts i
  have h2' : wsum means counts - wsum (means.take i) (counts.take i) =
      wsum (means.drop i) (counts.drop i) := by linarith
  have h3' : counts.sum - (counts.take i).sum = (counts.drop i).sum := by linarith
  simp only [calc_bss, BCV, countA, countB, meanA, meanB, meanGlobal]
  rw [h1, h2', h3']

theorem calc_bss_nonneg (counts means : List ℚ)
    (hnonneg : ∀ c ∈ counts, 0 ≤ c) (i : ℕ) :
    0 ≤ calc_bss counts means i := by
  have ha : 0 ≤ (counts.take i).sum :=
    List.sum_nonneg (fun c hc => hnonneg c (List.take_subset i counts hc))
  have hd : 0 ≤ (counts.drop i).sum :=
    List.sum_nonneg (fun c hc => hnonneg c (List.drop_subset i counts hc))
  have h3 := List.sum_take_add_sum_drop counts i
  have hb : 0 ≤ counts.sum - (counts.take i).sum := by linarith
  simp only [calc_bss]
  exact add_nonneg (mul_nonneg ha (sq_nonneg _)) (mul_nonneg hb (sq_nonneg _))

/-- A degenerate split (empty class A) has between-class variance 0 in the
source's computation: both class terms vanish under the division-by-zero
convention. -/
theorem calc_bss_degenerate (counts means : List ℚ) (i : ℕ)
    (h : (counts.take i).sum = 0) : calc_bss counts means i = 0 := by
  simp [calc_bss, h, sub_self]

/-- The split `i = N` (class B empty) has between-class variance 0 in the
source's computation. -/
theorem calc_bss_length (counts means : List ℚ)
    (hlen : counts.length = means.length) :
    calc_bss counts means means.length = 0 := by
  have ht : counts.take means.length = counts :=
    List.take_of_length_le (le_of_eq hlen)
  have tm : means.take means.length = means := List.take_length means
  simp [calc_bss, ht, tm, sub_self]

theorem insertByKey_ne_nil (p : ℚ × ℚ) (l : List (ℚ × ℚ)) : insertByKey p l ≠ [] := by
  cases l with
  | nil => simp [insertByKey]
  | cons q qs => simp only [insertByKey]; split <;> simp

/-- The last element of a stable insertion: the inserted pair lands last
exactly when its key strictly beats every key already present. -/
theorem getLast?_insertByKey (p : ℚ × ℚ) (l : List (ℚ × ℚ)) :
    (insertByKey p l).getLast? =
      if l.all (fun q => decide (q.1 < p.1)) then some p else l.getLast? := by
  induction l with
  | nil => simp [insertByKey]
  | cons q qs ih =>
    by_cases hle : p.1 ≤ q.1
    · have hq : ¬ (q.1 < p.1) := not_lt.mpr hle
      simp only [insertByKey, if_pos hle, List.all_cons]
      rw [List.getLast?_cons_cons]
      simp [hq]
    · have hq : q.1 < p.1 := not_le.mp hle
      simp only [insertByKey, if_neg hle, List.all_cons]
      obtain ⟨x, xs, hx⟩ : ∃ x xs, insertByKey p qs = x :: xs := by
        cases h : insertByKey p qs with
        | nil => exact absurd h (insertByKey_ne_nil p qs)
        | cons x xs => exact ⟨x, xs, rfl⟩
      rw [hx, List.getLast?_cons_cons, ← hx, ih]
      by_cases hall : qs.all (fun q => decide (q.1 < p.1)) = true
      · simp [hall, hq]
      · cases qs with
        | nil => simp at hall
        | cons r rs =>
          have hall2 : (r :: rs).all (fun q => decide (q.1 < p.1)) = false := by
            simpa using hall
          simp [hall2, hq, List.getLast?_cons_cons]

theorem insertByKey_perm (p : ℚ × ℚ) (l : List (ℚ × ℚ)) :
    (insertByKey p l).Perm (p :: l) := by
  induction l with
  | nil => simp [insertByKey]
  | cons q qs ih =>
    simp only [insertByKey]
    split
    · exact List.Perm.refl _
    · exact (ih.cons q).trans (List.Perm.swap p q qs)

theorem sortByKey_perm (l : List (ℚ × ℚ)) : (sortByKey l).Perm l := by
  induction l with
  | nil => simp [sortByKey]
  | cons p ps ih => exact (insertByKey_perm p (sortByKey ps)).trans (ih.cons p)

/-- The last element of the stable key-sort is the entry at the LAST
index achieving the maximal key: its key dominates every key, and every
later index carries a strictly smaller key. -/
theorem sortByKey_getLast? (l : List (ℚ × ℚ)) (hne : l ≠ []) :
    ∃ j, ∃ hj : j < l.length,
      (sortByKey l).getLast? = some (l.get ⟨j, hj⟩) ∧
      (∀ k (hk : k < l.length), (l.get ⟨k, hk⟩).1 ≤ (l.get ⟨j, hj⟩).1) ∧
      (∀ k (hk : k < l.length), j < k → (l.get ⟨k, hk⟩).1 < (l.get ⟨j, hj⟩).1) := by
  induction l with
  | nil => exact absurd rfl hne
  | cons p ps ih =>
    by_cases hps : ps = []
    · subst hps
      refine ⟨0, by simp, ?_, ?_, ?_⟩
      · simp [sortByKey, insertByKey]
      · intro k hk
        have hk0 : k = 0 := by simp at hk; omega
        subst hk0
        exact le_refl _
      · intro k hk h0k
        simp at hk
        omega
    · obtain ⟨j, hj, hlast, hmax, hstrict⟩ := ih hps
      show ∃ j, ∃ hj : j < (p :: ps).length, (insertByKey p (sortByKey ps)).getLast? = _ ∧ _ ∧ _
      rw [getLast?_insertByKey]
      by_cases hall : (sortByKey ps).all (fun q => decide (q.1 < p.1)) = true
      · have hmem : ∀ q ∈ ps, q.1 < p.1 := by
          intro q hq
          have hq2 : q ∈ sortByKey ps := (sortByKey_perm ps).mem_iff.mpr hq
          simpa using List.all_eq_true.mp hall q hq2
        refine ⟨0, by simp, ?_, ?_, ?_⟩
        · rw [if_pos hall]; rfl
        · intro k hk
          cases k with
          | zero => exact le_refl _
          | succ k =>
            have hk2 : k < ps.length := by simpa using hk
            exact le_of_lt (hmem _ (List.get_mem ps k hk2))
        · intro k hk h0k
          cases k with
          | zero => omega
          | succ k =>
            have hk2 : k < ps.length := by simpa using hk
            exact hmem _ (List.get_mem ps k hk2)
      · have hex : ∃ q ∈ ps, p.1 ≤ q.1 := by
          by_contra hcon
          push_neg at hcon
          apply hall
          refine List.all_eq_true.mpr ?_
          intro q hq
          have hq2 : q ∈ ps := (sortByKey_perm ps).mem_iff.mp hq
          simpa using hcon q hq2
        refine ⟨j + 1, by simpa using Nat.succ_lt_succ hj, ?_, ?_, ?_⟩
        · rw [if_neg hall, hlast]; rfl
        · intro k hk
          cases k with
          | zero =>
            obtain ⟨q, hqmem, hpq⟩ := hex
            obtain ⟨kq, hgq⟩ := List.mem_iff_get.mp hqmem
            have := hmax kq.1 kq.2
            show p.1 ≤ (ps.get ⟨j, hj⟩).1
            calc p.1 ≤ q.1 := hpq
              _ = (ps.get ⟨kq.1, kq.2⟩).1 := by rw [← hgq]
              _ ≤ (ps.get ⟨j, hj⟩).1 := this
          | succ k =>
            have hk2 : k < ps.length := by simpa using hk
            exact hmax k hk2
        · intro k hk hjk
          cases k with
          | zero => omega
          | succ k =>
            have hk2 : k < ps.length := by simpa using hk
            exact hstrict k hk2 (by omega)

/-- Characterization of `calculate_otsu_threshold` on a non-empty bucket
list: it returns the bucket mean at the LAST index whose split maximizes
the source's between-class variance; later indices have strictly smaller
variance. -/
theorem otsu_core (counts means : List ℚ) (hN : 1 ≤ means.length) :
    ∃ j, ∃ hj : j < means.length,
      calculate_otsu_threshold counts means = some (means.get ⟨j, hj⟩) ∧
      (∀ k, k < means.length →
        calc_bss counts means (k + 1) ≤ calc_bss counts means (j + 1)) ∧
      (∀ k, k < means.length → j < k →
        calc_bss counts means (k + 1) < calc_bss counts means (j + 1)) := by
  have hbl : (bssList counts means).length = means.length := by
    simp [bssList]
  have hlz : ((bssList counts means).zip means).length = means.length := by
    rw [List.length_zip, hbl, min_self]
  have hne : (bssList counts means).zip means ≠ [] :=
    List.ne_nil_of_length_pos (by omega)
  obtain ⟨j, hj, hlast, hmax, hstrict⟩ := sortByKey_getLast? _ hne
  have hj' : j < means.length := by omega
  have hget : ∀ (k : ℕ) (hk : k < ((bssList counts means).zip means).length),
      ((bssList counts means).zip means).get ⟨k, hk⟩ =
        (calc_bss counts means (k + 1), means.get ⟨k, by omega⟩) := by
    intro k hk
    have hk1 : k < means.length := by omega
    have hk2 : k < (bssList counts means).length := by omega
    rw [List.get_eq_getElem, List.getElem_zip]
    have h1 : (bssList counts means)[k] = calc_bss counts means (k + 1) := by
      simp [bssList]
    rw [h1, List.get_eq_getElem]
  refine ⟨j, hj', ?_, ?_, ?_⟩
  · rw [calculate_otsu_threshold, hlast, hget j hj]
    rfl
  · intro k hk1
    have hk : k < ((bssList counts means).zip means).length := by omega
    have := hmax k hk
    rw [hget k hk, hget j hj] at this
    exact this
  · intro k hk1 hjk
    have hk : k < ((bssList counts means).zip means).length := by omega
    have := hstrict k hk hjk
    rw [hget k hk, hget j hj] at this
    exact this

/-- C1: for every histogram given as aligned ascending bucket means and
non-negative counts with positive total, the solver returns the bucket
mean associated with a split index `i ∈ [1, N]` maximizing the
between-class variance `BCV` as defined by the spec. -/
theorem otsu_returns_bcv_maximizer (counts means : List ℚ)
    (hlen : counts.length = means.length) (hN : 1 ≤ means.length)
    (hasc : means.Sorted (· ≤ ·)) (hnonneg : ∀ c ∈ counts, 0 ≤ c)
    (htotal : 0 < counts.sum) :
    ∃ i, 1 ≤ i ∧ i ≤ means.length ∧
      (∀ k, k ≤ means.length → 1 ≤ k →
        BCV counts means k ≤ BCV counts means i) ∧
      ∃ hi : i - 1 < means.length,
        calculate_otsu_threshold counts means = some (means.get ⟨i - 1, hi⟩) := by
  obtain ⟨j, hj, hres, hmax, _⟩ := otsu_core counts means hN
  refine ⟨j + 1, by omega, by omega, ?_, hj, hres⟩
  intro k hk h1k
  have hk1 : k - 1 < means.length := by omega
  have h := hmax (k - 1) hk1
  rw [calc_bss_eq_BCV counts means hnonneg, calc_bss_eq_BCV counts means hnonneg] at h
  have hkk : k - 1 + 1 = k := by omega
  rw [hkk] at h
  exact h

/-- Witness for C1 at the histogram counts `[5, 1]`, means `[-3, -1]`. -/
theorem otsu_returns_bcv_maximizer_witness :
    ∃ i, 1 ≤ i ∧ i ≤ ([(-3 : ℚ), -1]).length ∧
      (∀ k, k ≤ ([(-3 : ℚ), -1]).length → 1 ≤ k →
        BCV [5, 1] [-3, -1] k ≤ BCV [5, 1] [-3, -1] i) ∧
      ∃ hi : i - 1 < ([(-3 : ℚ), -1]).length,
        calculate_otsu_threshold [5, 1] [-3, -1] =
          some (([(-3 : ℚ), -1]).get ⟨i - 1, hi⟩) :=
  otsu_returns_bcv_maximizer [5, 1] [-3, -1] (by simp) (by simp)
    (by norm_num [List.sorted_cons])
    (by intro c hc; rcases List.mem_cons.mp hc with rfl | hc; · norm_num
        · simp at hc; rw [hc]; norm_num)
    (by norm_num)

/-- C3: for every histogram with at least one bucket and positive total
count, the solver returns a value, and that value is one of the input
bucket means. -/
theorem otsu_threshold_mem_means (counts means : List ℚ)
    (hN : 1 ≤ means.length) (htotal : 0 < counts.sum) :
    ∃ t, calculate_otsu_threshold counts means = some t ∧ t ∈ means := by
  obtain ⟨j, hj, hres, _, _⟩ := otsu_core counts means hN
  exact ⟨means.get ⟨j, hj⟩, hres, List.get_mem means j hj⟩

/-- Witness for C3 at the histogram counts `[1, 2]`, means `[3, 7]`. -/
theorem otsu_threshold_mem_means_witness :
    ∃ t, calculate_otsu_threshold [1, 2] [3, 7] = some t ∧ t ∈ ([3, 7] : List ℚ) :=
  otsu_threshold_mem_means [1, 2] [3, 7] (by simp) (by norm_num)

/-- C7: with non-negative counts and positive total, the split returned
by the solver never has an empty class A (`countA = 0`): degenerate
splits contribute between-class variance 0 under the division-by-zero
convention and can never be the last maximal index, so the solver
returns the maximizer among the non-degenerate splits and never aborts. -/
theorem otsu_skips_degenerate_splits (counts means : List ℚ)
    (hlen : counts.length = means.length) (hN : 1 ≤ means.length)
    (hnonneg : ∀ c ∈ counts, 0 ≤ c) (htotal : 0 < counts.sum) :
    ∃ i, 1 ≤ i ∧ i ≤ means.length ∧ countA counts i ≠ 0 ∧
      (∀ k, k ≤ means.length → 1 ≤ k → countA counts k ≠ 0 →
        BCV counts means k ≤ BCV counts means i) ∧
      ∃ hi : i - 1 < means.length,
        calculate_otsu_threshold counts means = some (means.get ⟨i - 1, hi⟩) := by
  obtain ⟨j, hj, hres, hmax, hstrict⟩ := otsu_core counts means hN
  have hjc : countA counts (j + 1) ≠ 0 := by
    intro h0
    have hz : calc_bss counts means (j + 1) = 0 :=
      calc_bss_degenerate counts means (j + 1) h0
    by_cases hjN : j = means.length - 1
    · have hjj : j + 1 = means.length := by omega
      rw [hjj] at h0
      have hca : countA counts means.length = counts.sum := by
        unfold countA
        rw [← hlen, List.take_length]
      rw [hca] at h0
      exact absurd h0 (ne_of_gt htotal)
    · have hNz : calc_bss counts means means.length = 0 :=
        calc_bss_length counts means hlen
      have hlt : j < means.length - 1 := by omega
      have hstep := hstrict (means.length - 1) (by omega) hlt
      have he : means.length - 1 + 1 = means.length := by omega
      rw [he, hNz, hz] at hstep
      exact lt_irrefl 0 hstep
  refine ⟨j + 1, by omega, by omega, hjc, ?_, hj, hres⟩
  intro k hk h1k _
  have hk1 : k - 1 < means.length := by omega
  have h := hmax (k - 1) hk1
  rw [calc_bss_eq_BCV counts means hnonneg, calc_bss_eq_BCV counts means hnonneg] at h
  have hkk : k - 1 + 1 = k := by omega
  rw [hkk] at h
  exact h

/-- Witness for C7 at the histogram counts `[0, 4]`, means `[1, 2]`:
split `i = 1` really is degenerate (`countA = 0`) yet the solver
returns the non-degenerate maximizer. -/
theorem otsu_skips_degenerate_splits_witness :
    countA [0, 4] 1 = 0 ∧
    (∃ i, 1 ≤ i ∧ i ≤ ([(1 : ℚ), 2]).length ∧ countA [0, 4] i ≠ 0 ∧
      (∀ k, k ≤ ([(1 : ℚ), 2]).length → 1 ≤ k → countA [0, 4] k ≠ 0 →
        BCV [0, 4] [1, 2] k ≤ BCV [0, 4] [1, 2] i) ∧
      ∃ hi : i - 1 < ([(1 : ℚ), 2]).length,
        calculate_otsu_threshold [0, 4] [1, 2] =
          some (([(1 : ℚ), 2]).get ⟨i - 1, hi⟩)) :=
  ⟨by norm_num [countA],
    otsu_skips_degenerate_splits [0, 4] [1, 2] (by simp) (by simp)
      (by intro c hc; rcases List.mem_cons.mp hc with rfl | hc; · norm_num
          · simp at hc; rw [hc]; norm_num)
      (by norm_num)⟩

/-- C2: on a histogram where several splits tie for the maximal
between-class variance, the solver (whose sort is stable, so the last
maximal key wins) returns the largest-valued bucket mean among the tied
splits, and re-running it on the same histogram trivially yields the
same threshold. -/
theorem otsu_tie_break_largest_mean (counts means : List ℚ)
    (hlen : counts.length = means.length) (hN : 1 ≤ means.length)
    (hasc : means.Sorted (· ≤ ·)) (hnonneg : ∀ c ∈ counts, 0 ≤ c)
    (htotal : 0 < counts.sum)
    (htie : ∃ i j, 1 ≤ i ∧ i < j ∧ j ≤ means.length ∧
      BCV counts means i = BCV counts means j ∧
      (∀ k, k ≤ means.length → 1 ≤ k →
        BCV counts means k ≤ BCV counts means i)) :
    ∃ i, 1 ≤ i ∧ i ≤ means.length ∧
      (∀ k, k ≤ means.length → 1 ≤ k →
        BCV counts means k ≤ BCV counts means i) ∧
      (∃ hi : i - 1 < means.length,
        calculate_otsu_threshold counts means = some (means.get ⟨i - 1, hi⟩) ∧
        ∀ k, k ≤ means.length → 1 ≤ k →
          BCV counts means k = BCV counts means i →
          ∀ hk : k - 1 < means.length,
            means.get ⟨k - 1, hk⟩ ≤ means.get ⟨i - 1, hi⟩) ∧
      calculate_otsu_threshold counts means = calculate_otsu_threshold counts means := by
  obtain ⟨j, hj, hres, hmax, hstrict⟩ := otsu_core counts means hN
  have hBmax : ∀ k, k ≤ means.length → 1 ≤ k →
      BCV counts means k ≤ BCV counts means (j + 1) := by
    intro k hk h1k
    have hk1 : k - 1 < means.length := by omega
    have h := hmax (k - 1) hk1
    rw [calc_bss_eq_BCV counts means hnonneg,
      calc_bss_eq_BCV counts means hnonneg] at h
    have hkk : k - 1 + 1 = k := by omega
    rw [hkk] at h
    exact h
  refine ⟨j + 1, by omega, by omega, hBmax, ⟨hj, hres, ?_⟩, rfl⟩
  intro k hk h1k heq hk1
  have hkj : k - 1 ≤ j := by
    by_contra hgt
    push_neg at hgt
    have h := hstrict (k - 1) (by omega) hgt
    rw [calc_bss_eq_BCV counts means hnonneg,
      calc_bss_eq_BCV counts means hnonneg] at h
    have hkk : k - 1 + 1 = k := by omega
    rw [hkk, heq] at h
    exact lt_irrefl _ h
  rcases eq_or_lt_of_le hkj with heq2 | hlt2
  · rw [show (⟨k - 1, hk1⟩ : Fin means.length) = ⟨j, hj⟩ from Fin.ext heq2]
    exact le_refl _
  · exact List.Sorted.rel_get_of_lt hasc (Fin.mk_lt_mk.mpr hlt2)

/-- Witness for C2 at the histogram counts `[100, 10, 100]`, means
`[-20, -15, -10]`: splits 1 and 2 genuinely tie for the maximal
between-class variance (both `52500/11`). -/
theorem otsu_tie_break_largest_mean_witness :
    ∃ i, 1 ≤ i ∧ i ≤ ([(-20 : ℚ), -15, -10]).length ∧
      (∀ k, k ≤ ([(-20 : ℚ), -15, -10]).length → 1 ≤ k →
        BCV [100, 10, 100] [-20, -15, -10] k ≤
          BCV [100, 10, 100] [-20, -15, -10] i) ∧
      (∃ hi : i - 1 < ([(-20 : ℚ), -15, -10]).length,
        calculate_otsu_threshold [100, 10, 100] [-20, -15, -10] =
          some (([(-20 : ℚ), -15, -10]).get ⟨i - 1, hi⟩) ∧
        ∀ k, k ≤ ([(-20 : ℚ), -15, -10]).length → 1 ≤ k →
          BCV [100, 10, 100] [-20, -15, -10] k =
            BCV [100, 10, 100] [-20, -15, -10] i →
          ∀ hk : k - 1 < ([(-20 : ℚ), -15, -10]).length,
            ([(-20 : ℚ), -15, -10]).get ⟨k - 1, hk⟩ ≤
              ([(-20 : ℚ), -15, -10]).get ⟨i - 1, hi⟩) ∧
      calculate_otsu_threshold [100, 10, 100] [-20, -15, -10] =
        calculate_otsu_threshold [100, 10, 100] [-20, -15, -10] :=
  otsu_tie_break_largest_mean [100, 10, 100] [-20, -15, -10] (by simp) (by simp)
    (by norm_num [List.sorted_cons])
    (by intro c hc
        rcases List.mem_cons.mp hc with rfl | hc
        · norm_num
        rcases List.mem_cons.mp hc with rfl | hc
        · norm_num
        simp at hc; rw [hc]; norm_num)
    (by norm_num)
    ⟨1, 2, by norm_num, by norm_num, by norm_num,
      by norm_num [BCV, countA, countB, meanA, meanB, meanGlobal, wsum],
      by intro k hk h1k
         have hk3 : k ≤ 3 := by simpa using hk
         interval_cases k <;>
           norm_num [BCV, countA, countB, meanA, meanB, meanGlobal, wsum]⟩

/-- C9: on the histogram
`[(mean=-20,count=100), (mean=-15,count=10), (mean=-10,count=100)]`
the solver returns `-15` — the sparse middle bucket between the two
dense clusters — and not `-20` or `-10`. -/
theorem otsu_bimodal_scenario :
    calculate_otsu_threshold [100, 10, 100] [-20, -15, -10] = some (-15) ∧
    calculate_otsu_threshold [100, 10, 100] [-20, -15, -10] ≠ some (-20) ∧
    calculate_otsu_threshold [100, 10, 100] [-20, -15, -10] ≠ some (-10) := by
  have h : calculate_otsu_threshold [100, 10, 100] [-20, -15, -10] = some (-15) := by
    norm_num [calculate_otsu_threshold, bssList, calc_bss, wsum, sortByKey,
      insertByKey, List.range_succ]
  refine ⟨h, ?_, ?_⟩ <;> rw [h] <;> simp

/-- C8 counterexample: on the zero-total histogram
counts `[0, 0]`, means `[1, 2]` the solver does NOT fail — there is no
zero-total check in the source, division by zero yields 0 under the
platform convention, every split's variance is 0, and the solver returns
the last bucket mean `2`; consequently `calculate_ward_threshold` adopts
`2` as the ward's threshold instead of converting anything into the
fallback `-15`. -/
theorem otsu_zero_total_returns_value :
    calculate_otsu_threshold [0, 0] [1, 2] = some 2 ∧
    (calculate_ward_threshold ⟨0, some ([0, 0], [1, 2])⟩).otsu_threshold = 2 ∧
    (calculate_ward_threshold ⟨0, some ([0, 0], [1, 2])⟩).otsu_threshold ≠ -15 := by
  have h : calculate_otsu_threshold [0, 0] [1, 2] = some 2 := by
    norm_num [calculate_otsu_threshold, bssList, calc_bss, wsum, sortByKey,
      insertByKey, List.range_succ]
  refine ⟨h, ?_, ?_⟩ <;> simp [calculate_ward_threshold, h] <;> norm_num

/-- C8 amended: for every aligned histogram with non-negative counts and
zero total count, the solver does not fail: every split's between-class
variance is 0 (division by zero yields 0), so the stable sort leaves the
means in place and the solver returns the last (largest) bucket mean. -/
theorem otsu_zero_total_last_mean (counts means : List ℚ)
    (hlen : counts.length = means.length) (hne : means ≠ [])
    (hnonneg : ∀ c ∈ counts, 0 ≤ c) (hzero : counts.sum = 0) :
    calculate_otsu_threshold counts means = some (means.getLast hne) := by
  have hz : ∀ c ∈ counts, c = 0 := sum_zero_all_zero counts hnonneg hzero
  have htake : ∀ i, (counts.take i).sum = 0 := fun i =>
    List.sum_eq_zero (fun c hc => hz c (List.take_subset i counts hc))
  have hbz : ∀ i, calc_bss counts means i = 0 := fun i =>
    calc_bss_degenerate counts means i (htake i)
  have hN : 1 ≤ means.length := by
    have := List.length_pos.mpr hne
    omega
  obtain ⟨j, hj, hres, _, hstrict⟩ := otsu_core counts means hN
  have hjN : j = means.length - 1 := by
    by_contra hne2
    have hlt : j < means.length - 1 := by omega
    have h := hstrict (means.length - 1) (by omega) hlt
    rw [hbz, hbz] at h
    exact lt_irrefl 0 h
  rw [hres]
  congr 1
  subst hjN
  rw [List.getLast_eq_getElem, List.get_eq_getElem]

/-- Witness for the amended C8 at counts `[0, 0, 0]`, means `[4, 5, 6]`. -/
theorem otsu_zero_total_last_mean_witness :
    calculate_otsu_threshold [0, 0, 0] [4, 5, 6] =
      some (([4, 5, 6] : List ℚ).getLast (by simp)) :=
  otsu_zero_total_last_mean [0, 0, 0] [4, 5, 6] (by simp) (by simp)
    (by intro c hc
        rcases List.mem_cons.mp hc with rfl | hc
        · norm_num
        rcases List.mem_cons.mp hc with rfl | hc
        · norm_num
        simp at hc; rw [hc])
    (by norm_num)

/-- C4 counterexample: the region that fails (histogram retrieval raises,
modelled by `none`) is assigned the threshold `-15`, but it is NOT
recorded as having fallen back: `threshold_calculated` is `true` for the
failed ward exactly as for a ward whose solve succeeded (ward 8 below
solves to `-20`), and `WardResult` carries no other field — the failure
is silently indistinguishable, and the `-15` is a fixed constant of the
implementation, not a caller-supplied parameter. -/
theorem ward_fallback_not_flagged :
    (calculate_ward_threshold ⟨7, none⟩).otsu_threshold = -15 ∧
    (calculate_ward_threshold ⟨7, none⟩).threshold_calculated = true ∧
    (calculate_ward_threshold ⟨8, some ([2, 3], [-20, -10])⟩).otsu_threshold = -20 ∧
    (calculate_ward_threshold ⟨7, none⟩).threshold_calculated =
      (calculate_ward_threshold ⟨8, some ([2, 3], [-20, -10])⟩).threshold_calculated := by
  have h : calculate_otsu_threshold [2, 3] [-20, -10] = some (-20) := by
    norm_num [calculate_otsu_threshold, bssList, calc_bss, wsum, sortByKey,
      insertByKey, List.range_succ]
  refine ⟨?_, ?_, ?_, ?_⟩ <;> simp [calculate_ward_threshold, h]

/-- C4 amended: for every ward whose histogram retrieval or solving
fails, `calculate_ward_threshold` assigns the fixed fallback threshold
`-15` (a constant of the implementation, not caller-specified) instead
of aborting, and sets `threshold_calculated = true` exactly as for every
other ward, so fallback wards are not flagged distinctly. -/
theorem ward_fallback_fixed (w : WardFeature)
    (hfail : w.histogram = none ∨
      ∃ counts means, w.histogram = some (counts, means) ∧
        calculate_otsu_threshold counts means = none) :
    (calculate_ward_threshold w).otsu_threshold = -15 ∧
    (calculate_ward_threshold w).threshold_calculated = true ∧
    (calculate_ward_threshold w).ward_id = w.ward_id := by
  rcases hfail with h | ⟨c, m, hh, hs⟩
  · simp [calculate_ward_threshold, h]
  · simp [calculate_ward_threshold, hh, hs]

/-- Witness for the amended C4 at the ward `⟨3, none⟩` whose histogram
retrieval failed. -/
theorem ward_fallback_fixed_witness :
    (calculate_ward_threshold ⟨3, none⟩).otsu_threshold = -15 ∧
    (calculate_ward_threshold ⟨3, none⟩).threshold_calculated = true ∧
    (calculate_ward_threshold ⟨3, none⟩).ward_id = (⟨3, none⟩ : WardFeature).ward_id :=
  ward_fallback_fixed ⟨3, none⟩ (Or.inl rfl)

theorem sum_map_one {β : Type} (l : List β) :
    (l.map (fun _ => (1 : ℚ))).sum = l.length := by
  induction l with
  | nil => simp
  | cons x xs ih => simp [ih]; ring

/-- The accumulator-generalized shape of the mask-synthesis loop: the
fold succeeds when every `ward_id` resolves, and the resulting mask is
the pointwise OR of the accumulator with all per-region masks. -/
theorem detect_water_foldl {α : Type} (img : α → ℚ) (wards : List (Ward α)) :
    ∀ (thresholds : List (ℕ × ℚ)) (acc : α → Bool),
      (∀ e ∈ thresholds, (findWard wards e.1).isSome) →
      ∃ m, List.foldlM
          (fun acc e => (findWard wards e.1).map
            (fun w => imageOr acc (perRegionMask img e.2 w))) acc thresholds = some m ∧
        ∀ p, m p = (acc p || thresholds.any (fun e =>
          match findWard wards e.1 with
          | some w => perRegionMask img e.2 w p
          | none => false)) := by
  intro thresholds
  induction thresholds with
  | nil =>
    intro acc _
    exact ⟨acc, rfl, by simp⟩
  | cons e es ih =>
    intro acc h
    obtain ⟨w, hw⟩ := Option.isSome_iff_exists.mp (h e (List.mem_cons_self e es))
    obtain ⟨m, hm, hmp⟩ := ih (imageOr acc (perRegionMask img e.2 w))
      (fun x hx => h x (List.mem_cons_of_mem e hx))
    refine ⟨m, ?_, ?_⟩
    · rw [List.foldlM_cons, hw]
      simpa using hm
    · intro p
      rw [hmp p]
      simp [imageOr, hw, Bool.or_assoc]

/-- C5: for every intensity image, threshold map and ward set in which
every threshold key resolves to a ward, the synthesized mask is the
logical OR over all entries of the per-region mask
(`pixel < threshold`, clipped to the region), and every pixel outside
all ward geometries is 0 (not water). -/
theorem mask_synthesizer_union {α : Type} (img : α → ℚ) (wards : List (Ward α))
    (thresholds : List (ℕ × ℚ))
    (hres : ∀ e ∈ thresholds, (findWard wards e.1).isSome) :
    ∃ m, detect_water_with_ward_thresholds img wards thresholds = some m ∧
      (∀ p, m p = thresholds.any (fun e =>
        match findWard wards e.1 with
        | some w => perRegionMask img e.2 w p
        | none => false)) ∧
      (∀ p, (∀ w ∈ wards, w.geom p = false) → m p = false) := by
  obtain ⟨m, hm, hmp⟩ := detect_water_foldl img wards thresholds (fun _ => false) hres
  refine ⟨m, hm, fun p => by simpa using hmp p, ?_⟩
  intro p hout
  have h1 := hmp p
  simp only [Bool.false_or] at h1
  rw [h1]
  refine List.any_eq_false.mpr ?_
  intro e he
  cases hw : findWard wards e.1 with
  | none => simp
  | some w =>
    have hwm : w ∈ wards := List.mem_of_find?_eq_some hw
    simp [hw, perRegionMask, imageClip, hout w hwm]

/-- Witness for C5: two wards with disjoint extents over a two-pixel
space (`Bool`), thresholds `-16` and `-14`, image `-18` on the left and
`-12` on the right. -/
theorem mask_synthesizer_union_witness :
    ∃ m, detect_water_with_ward_thresholds
        (fun p : Bool => if p then (-18 : ℚ) else -12)
        [⟨1, fun p => p⟩, ⟨2, fun p => !p⟩] [(1, -16), (2, -14)] = some m ∧
      (∀ p, m p = ([(1, -16), (2, -14)] : List (ℕ × ℚ)).any (fun e =>
        match findWard [⟨1, fun p => p⟩, ⟨2, fun p => !p⟩] e.1 with
        | some w => perRegionMask (fun p : Bool => if p then (-18 : ℚ) else -12)
            e.2 w p
        | none => false)) ∧
      (∀ p, (∀ w ∈ ([⟨1, fun p => p⟩, ⟨2, fun p => !p⟩] : List (Ward Bool)),
        w.geom p = false) → m p = false) :=
  mask_synthesizer_union _ _ _
    (by intro e he
        rcases List.mem_cons.mp he with rfl | he
        · simp [findWard]
        rcases List.mem_cons.mp he with rfl | he
        · simp [findWard]
        · simp at he)

/-- C6 counterexample: aggregating an empty mask sequence does NOT fail —
the source has no emptiness check, and `sum/0` yields the all-zero
surface under the division-by-zero convention, so a `FrequencySurface`
is produced for `N = 0` instead of an `EmptySequence` failure. -/
theorem frequency_empty_zero_surface :
    water_frequency ([] : List (Unit → Bool)) = fun _ => (0 : ℚ) := by
  funext p
  simp [water_frequency]

/-- C6 amended: for every non-empty sequence of `N` masks, the frequency
surface at each pixel is the sum of the mask values divided by `N`, lies
in `[0, 1]`, and equals exactly 1 when every mask is 1 at that pixel;
for `N = 0` the code produces the all-zero surface rather than failing
(see the counterexample). -/
theorem frequency_average_bounds {α : Type} (masks : List (α → Bool))
    (hN : 1 ≤ masks.length) (p : α) :
    water_frequency masks p =
      (masks.map (fun m => if m p then (1 : ℚ) else 0)).sum /
        (masks.length : ℚ) ∧
    0 ≤ water_frequency masks p ∧ water_frequency masks p ≤ 1 ∧
    ((∀ m ∈ masks, m p = true) → water_frequency masks p = 1) := by
  have hlen : (0 : ℚ) < (masks.length : ℚ) := by
    have h0 : 0 < masks.length := by omega
    exact_mod_cast h0
  have hnn : ∀ x ∈ masks.map (fun m => if m p then (1 : ℚ) else 0), 0 ≤ x := by
    intro x hx
    obtain ⟨m, _, rfl⟩ := List.mem_map.mp hx
    split <;> norm_num
  refine ⟨rfl, div_nonneg (List.sum_nonneg hnn) (le_of_lt hlen), ?_, ?_⟩
  · show (masks.map (fun m => if m p then (1 : ℚ) else 0)).sum /
      (masks.length : ℚ) ≤ 1
    rw [div_le_one hlen]
    have hle : ∀ x ∈ masks.map (fun m => if m p then (1 : ℚ) else 0), x ≤ 1 := by
      intro x hx
      obtain ⟨m, _, rfl⟩ := List.mem_map.mp hx
      split <;> norm_num
    have h := List.sum_le_card_nsmul _ 1 hle
    simpa [nsmul_eq_mul] using h
  · intro hall
    have hmap : masks.map (fun m => if m p then (1 : ℚ) else 0) =
        masks.map (fun _ => (1 : ℚ)) :=
      List.map_congr_left (fun m hm => by rw [hall m hm]; simp)
    show (masks.map (fun m => if m p then (1 : ℚ) else 0)).sum /
      (masks.length : ℚ) = 1
    rw [hmap, sum_map_one]
    exact div_self (ne_of_gt hlen)

/-- Witness for the amended C6: two all-water masks over a single pixel
give frequency exactly 1. -/
theorem frequency_average_bounds_witness :
    water_frequency ([fun _ => true, fun _ => true] : List (Unit → Bool)) () =
      (([fun _ => true, fun _ => true] : List (Unit → Bool)).map
          (fun m => if m () then (1 : ℚ) else 0)).sum /
        ((([fun _ => true, fun _ => true] : List (Unit → Bool)).length : ℚ)) ∧
    0 ≤ water_frequency ([fun _ => true, fun _ => true] : List (Unit → Bool)) () ∧
    water_frequency ([fun _ => true, fun _ => true] : List (Unit → Bool)) () ≤ 1 ∧
    ((∀ m ∈ ([fun _ => true, fun _ => true] : List (Unit → Bool)), m () = true) →
      water_frequency ([fun _ => true, fun _ => true] : List (Unit → Bool)) () = 1) :=
  frequency_average_bounds _ (by simp) ()

/-- C10: with pairwise-distinct ward identifiers, the mapping returned by
`calculate_ward_specific_thresholds` has exactly one entry per input
ward, keyed by that ward's `ward_id`, holding the threshold computed by
`calculate_ward_threshold`; a serialized feature whose `otsu_threshold`
property is absent receives the constant `-15`, and the same fixed `-15`
is the fallback used inside `calculate_ward_threshold` — neither is a
caller parameter. -/
theorem ward_thresholds_complete (wards : List WardFeature)
    (hnodup : (wards.map WardFeature.ward_id).Nodup) :
    (calculate_ward_specific_thresholds wards).map Prod.fst =
      wards.map WardFeature.ward_id ∧
    ((calculate_ward_specific_thresholds wards).map Prod.fst).Nodup ∧
    (∀ w ∈ wards, (w.ward_id, (calculate_ward_threshold w).otsu_threshold) ∈
      calculate_ward_specific_thresholds wards) ∧
    (∀ (features : List FeatureProps), ∀ f ∈ features, f.otsu_threshold = none →
      (f.ward_id, (-15 : ℚ)) ∈ extract_ward_thresholds features) ∧
    (∀ w : WardFeature, w.histogram = none →
      (calculate_ward_threshold w).otsu_threshold = -15) := by
  have hkeys : (calculate_ward_specific_thresholds wards).map Prod.fst =
      wards.map WardFeature.ward_id := by
    simp only [calculate_ward_specific_thresholds, extract_ward_thresholds,
      List.map_map]
    rfl
  refine ⟨hkeys, hkeys ▸ hnodup, ?_, ?_, ?_⟩
  · intro w hw
    simp only [calculate_ward_specific_thresholds, extract_ward_thresholds,
      List.map_map]
    exact List.mem_map.mpr ⟨w, hw, rfl⟩
  · intro features f hf hnone
    refine List.mem_map.mpr ⟨f, hf, ?_⟩
    rw [hnone]
    rfl
  · intro w hw
    simp [calculate_ward_threshold, hw]

/-- Witness for C10 at two wards with distinct identifiers, one failing
retrieval and one with a one-bucket histogram. -/
theorem ward_thresholds_complete_witness :
    (calculate_ward_specific_thresholds [⟨1, none⟩, ⟨2, some ([1], [0])⟩]).map
        Prod.fst =
      ([⟨1, none⟩, ⟨2, some ([1], [0])⟩] : List WardFeature).map
        WardFeature.ward_id ∧
    ((calculate_ward_specific_thresholds [⟨1, none⟩, ⟨2, some ([1], [0])⟩]).map
      Prod.fst).Nodup ∧
    (∀ w ∈ ([⟨1, none⟩, ⟨2, some ([1], [0])⟩] : List WardFeature),
      (w.ward_id, (calculate_ward_threshold w).otsu_threshold) ∈
        calculate_ward_specific_thresholds [⟨1, none⟩, ⟨2, some ([1], [0])⟩]) ∧
    (∀ (features : List FeatureProps), ∀ f ∈ features, f.otsu_threshold = none →
      (f.ward_id, (-15 : ℚ)) ∈ extract_ward_thresholds features) ∧
    (∀ w : WardFeature, w.histogram = none →
      (calculate_ward_threshold w).otsu_threshold = -15) :=
  ward_thresholds_complete [⟨1, none⟩, ⟨2, some ([1], [0])⟩] (by simp)
